import Mathlib

/-!
Verification of the benthos `group_by` processor (`lib/processor/group_by.go`)
and the `metadata` processor, embedded shallowly: messages are lists of parts,
conditions and sub-processors are functions, and the Go loops become folds /
structural recursions.  A second, store-passing embedding at the end of the
file makes part aliasing and mutation explicit in order to state the
frame-effect properties (non-mutation of the source batch).
-/

namespace Benthos

/-- A message part: an opaque payload plus a metadata key/value mapping
(`types.Part`).  Metadata is modelled as an association list. -/
structure Part where
  content : String
  metadata : List (String × String)
deriving DecidableEq, Repr, Inhabited

/-- A message (`types.Message`): an ordered sequence of parts. -/
abbrev Batch := List Part

/-- The `types.Response` values relevant here: `response.NewAck()` is `ack`;
a processor may in general also return an error response. -/
inductive Response where
  | ack
  | noAck
  | error (e : String)
deriving DecidableEq, Repr

/-- `Part.Copy`: in the pure value embedding a copy is the same value. -/
def Part.copy (p : Part) : Part :=
  { content := p.content, metadata := p.metadata }

/-- A condition capability (`condition.Type`): `Check(message.Lock(msg, i))`
reads part `i` in the context of the whole original batch and returns a
boolean.  Modelled as a pure function of the batch and the index. -/
abbrev CondFn := Batch → Nat → Bool

/-- A sub-processor capability (`processor.Type`): `ProcessMessage` maps one
batch to zero or more batches plus an optional response. -/
abbrev ProcFn := Batch → List Batch × Option Response

/-- One configured group (the `group` struct): a condition plus an ordered
list of processors. -/
structure Group where
  Condition : CondFn
  Processors : List ProcFn

/-- The `GroupBy` processor: its ordered list of groups (metrics and logging
fields are observational only and omitted). -/
structure GroupBy where
  groups : List Group

/-- A default group whose condition never passes; used only to give
out-of-range group indices a harmless meaning in lemma statements. -/
def defaultGroup : Group :=
  { Condition := fun _ _ => false, Processors := [] }

/-- The condition of group `j` applied to part `i` of `msg`; `false` for
out-of-range `j`. -/
def condAt (gs : List Group) (msg : Batch) (i : Nat) (j : Nat) : Bool :=
  (gs.getD j defaultGroup).Condition msg i

/-- The inner loop of `msg.Iter`'s closure: the index of the first group
whose condition passes for part `i`, if any. -/
def firstMatch (gs : List Group) (msg : Batch) (i : Nat) : Option Nat :=
  match gs with
  | [] => none
  | g :: rest =>
    if g.Condition msg i then some 0
    else (firstMatch rest msg i).map (· + 1)

/-- One iteration of `msg.Iter`: part `ip.2` at index `ip.1` is appended
(as a copy) to the first matching group's bucket, or to the residual
bucket (`groupless`) when no condition passes. -/
def classifyStep (gs : List Group) (msg : Batch)
    (acc : List Batch × Batch) (ip : Nat × Part) : List Batch × Batch :=
  match firstMatch gs msg ip.1 with
  | some j => (acc.1.set j (acc.1.getD j [] ++ [ip.2.copy]), acc.2)
  | none => (acc.1, acc.2 ++ [ip.2.copy])

/-- The `msg.Iter` loop over the enumerated parts. -/
def classifyGo (gs : List Group) (msg : Batch)
    (items : List (Nat × Part)) (acc : List Batch × Batch) :
    List Batch × Batch :=
  match items with
  | [] => acc
  | ip :: rest => classifyGo gs msg rest (classifyStep gs msg acc ip)

/-- Lines 230-248 of `group_by.go`: allocate one empty bucket per group plus
an empty residual bucket, then route every part of `msg`. -/
def classify (gs : List Group) (msg : Batch) : List Batch × Batch :=
  classifyGo gs msg msg.enum (List.replicate gs.length [], [])

/-- The inner loop of the per-group chain (`for _, m := range resultMsgs`):
apply stage `p` to each batch, concatenating the produced batches; the
response variable is overwritten by each call, so the last call's response
survives. -/
def runStage (p : ProcFn) :
    List Batch → Option Response → List Batch × Option Response
  | [], res => ([], res)
  | m :: ms, res =>
    let r := p m
    let rest := runStage p ms r.2
    (r.1 ++ rest.1, rest.2)

/-- The per-group chain loop
(`for j := 0; len(resultMsgs) > 0 && j < len(procs); j++`): run each stage
over the current working set, stopping early when the working set becomes
empty. -/
def runChainGo :
    List ProcFn → List Batch → Option Response → List Batch × Option Response
  | _, [], res => ([], res)
  | [], bs, res => (bs, res)
  | p :: ps, bs, res =>
    let s := runStage p bs res
    runChainGo ps s.1 s.2

/-- Lines 250-276 of `group_by.go`: for each group in order, skip it when its
bucket is empty, otherwise run its chain starting from the single bucket
batch and collect the surviving batches (a stage error is only logged). -/
def processGroups : List Group → List Batch → List Batch
  | g :: gs, b :: bs =>
    (if b.length = 0 then []
     else
       let r := runChainGo g.Processors [b] none
       if r.1.length > 0 then r.1 else []) ++ processGroups gs bs
  | _, _ => []

/-- The batch collection `msgs` built by `ProcessMessage` before the final
empties check: the surviving group batches in group order, followed by the
residual bucket when it is non-empty. -/
def collectOutputs (g : GroupBy) (msg : Batch) : List Batch :=
  if (classify g.groups msg).2.length > 0 then
    processGroups g.groups (classify g.groups msg).1 ++
      [(classify g.groups msg).2]
  else processGroups g.groups (classify g.groups msg).1

/-- `GroupBy.ProcessMessage` (lines 222-292 of `group_by.go`): an empty input
is acknowledged; otherwise parts are routed, each group chain is run, the
residual is appended, and an empty collection is acknowledged while a
non-empty one is returned with a nil response. -/
def ProcessMessage (g : GroupBy) (msg : Batch) :
    List Batch × Option Response :=
  if msg.length = 0 then ([], some Response.ack)
  else
    let msgs := collectOutputs g msg
    if msgs.length = 0 then ([], some Response.ack)
    else (msgs, none)

/-- Replace the processor list of group `i`, keeping its condition; used to
express that an empty bucket's chain is never invoked. -/
def setProcs (g : GroupBy) (i : Nat) (ps : List ProcFn) : GroupBy :=
  { groups :=
      g.groups.set i
        { Condition := (g.groups.getD i defaultGroup).Condition
          Processors := ps } }

/-- The per-group chain outputs, written without the redundant guards of the
Go loop: for each group in order, the batches surviving its chain (all of
them, empty or not), nothing for groups with an empty bucket. -/
def groupOutputsAll : List Group → List Batch → List Batch
  | g :: gs, b :: bs =>
    (if b = [] then [] else (runChainGo g.Processors [b] none).1) ++
      groupOutputsAll gs bs
  | _, _ => []

/-- The output collection as the spec's step 6 words it, keeping only the
NON-EMPTY batches surviving each group's chain.  This definition follows the
spec's sentence and is compared against `collectOutputs`, which follows the
code. -/
def groupOutputsSpecNonEmpty : List Group → List Batch → List Batch
  | g :: gs, b :: bs =>
    (if b = [] then []
     else (runChainGo g.Processors [b] none).1.filter
       (fun r => !(r.isEmpty))) ++
      groupOutputsSpecNonEmpty gs bs
  | _, _ => []

/-- The whole collection as the spec words it: non-empty surviving batches
in group order, then the residual batch when non-empty. -/
def collectOutputsSpec (g : GroupBy) (msg : Batch) : List Batch :=
  groupOutputsSpecNonEmpty g.groups (classify g.groups msg).1 ++
    (if (classify g.groups msg).2 = [] then []
     else [(classify g.groups msg).2])


/-! ## The `metadata` processor -/

/-- Part metadata (`types.Metadata`), an association list standing for the
Go string map. -/
abbrev Metadata := List (String × String)

/-- `Metadata.Set`: overwrite the binding of `key`. -/
def metaSet (key value : String) (m : Metadata) : Metadata :=
  m.filter (fun kv => !(kv.1 == key)) ++ [(key, value)]

/-- The body of `newMetadataDeleteAllOperator`: iterate over all keys and
delete each, leaving the empty map. -/
def metaDeleteAll (_m : Metadata) : Metadata := []

/-- The body of the delete-by-prefix operator: delete every key that starts
with the given string. -/
def metaDeletePfx (pfx : String) (m : Metadata) : Metadata :=
  m.filter (fun kv => !(pfx.isPrefixOf kv.1))

/-- `metadataOperator`: takes a metadata map and the (resolved) value bytes,
returns the updated map along with an optional error. -/
abbrev metadataOperator := Metadata → String → Metadata × Option String

/-- `newMetadataSetOperator key`. -/
def newMetadataSetOperator (key : String) : metadataOperator :=
  fun m value => (metaSet key value m, none)

/-- `newMetadataDeleteAllOperator key` (the key is unused). -/
def newMetadataDeleteAllOperator (_key : String) : metadataOperator :=
  fun m _value => (metaDeleteAll m, none)

/-- The `delete_prefix` operator (the key is unused; the value is the
prefix). -/
def newMetadataDeletePfxOperator (_key : String) : metadataOperator :=
  fun m value => (metaDeletePfx value m, none)

/-- `getMetadataOperator` (lines 121-131 of the metadata processor source):
resolve the operator name, failing on anything unrecognised. -/
def getMetadataOperator (opStr : String) (key : String) :
    Except String metadataOperator :=
  match opStr with
  | "set" => Except.ok (newMetadataSetOperator key)
  | "delete_all" => Except.ok (newMetadataDeleteAllOperator key)
  | "delete_prefix" => Except.ok (newMetadataDeletePfxOperator key)
  | _ => Except.error ("operator not recognised: " ++ opStr)

/-- `MetadataConfig`: the configuration fields of the metadata processor. -/
structure MetadataConfig where
  Parts : List Int
  Operator : String
  Key : String
  Value : String

/-- The interpolation collaborator (`util/text`), external to this core:
whether a template contains function variables, and how a template is
resolved against a message. -/
structure InterpEnv where
  containsVars : String → Bool
  replaceVars : Batch → String → String

/-- The `Metadata` processor state built by `NewMetadata` (metrics and
logging omitted). -/
structure MetadataProc where
  interpolate : Bool
  valueBytes : String
  operator : metadataOperator
  parts : List Int

/-- `NewMetadata` (lines 156-182): store value and parts, detect
interpolation, resolve the operator; an unrecognised operator name fails
construction. -/
def NewMetadata (env : InterpEnv) (conf : MetadataConfig) :
    Except String MetadataProc :=
  match getMetadataOperator conf.Operator conf.Key with
  | Except.error e => Except.error e
  | Except.ok op =>
    Except.ok
      { interpolate := env.containsVars conf.Value
        valueBytes := conf.Value
        operator := op
        parts := conf.Parts }

/-- One iteration of the target-parts loop:
`p.operator(newMsg.Get(index).Metadata(), valueBytes)`, with an operator
error only logged.  The message index accessor (`lib/message`) is not part
of the given source; out-of-range indices are modelled from the spec
(a configurable index subset of the batch) as leaving the batch
unchanged. -/
def applyAtIdx (op : metadataOperator) (value : String)
    (m : Batch) (idx : Int) : Batch :=
  if 0 ≤ idx ∧ idx.toNat < m.length then
    let part := m.getD idx.toNat default
    m.set idx.toNat { part with metadata := (op part.metadata value).1 }
  else m

/-- `Batch.copy` (`msg.Copy()`): in the pure value embedding a copy is the
same list of part values. -/
def batchCopy (msg : Batch) : Batch := msg.map Part.copy

/-- `Metadata.ProcessMessage` (lines 188-218): copy the message, resolve the
value once against the original message when interpolating, default the
target subset to every index, apply the operator to each targeted part, and
return the single resulting batch with a nil response. -/
def MetadataProc.ProcessMessage (env : InterpEnv) (p : MetadataProc)
    (msg : Batch) : List Batch × Option Response :=
  let newMsg := batchCopy msg
  let value := if p.interpolate then env.replaceVars msg p.valueBytes
               else p.valueBytes
  let targetParts :=
    if p.parts.length = 0 then (List.range newMsg.length).map (fun i : Nat => (i : Int))
    else p.parts
  let outMsg := targetParts.foldl (applyAtIdx p.operator value) newMsg
  ([outMsg], none)

/-- The value actually used for every edit: the template resolved once
against the original message when it interpolates, the raw template
otherwise. -/
def resolvedValue (env : InterpEnv) (p : MetadataProc) (msg : Batch) :
    String :=
  if p.interpolate then env.replaceVars msg p.valueBytes else p.valueBytes

/-- A part with the operator applied to its metadata. -/
def applyOp (op : metadataOperator) (value : String) (part : Part) : Part :=
  { part with metadata := (op part.metadata value).1 }

/-! ## Store-passing embedding

The same two processors, embedded with an explicit part heap so that
aliasing and in-place mutation of parts (pointers in the Go source) can be
stated: messages become lists of references, `Copy` allocates, and
sub-processors may write the store. -/

/-- A message in the store embedding: an ordered list of part references. -/
abbrev RBatch := List Nat

/-- The part heap: the contents of every allocated reference plus the next
fresh address. -/
structure Store where
  mem : Nat → Part
  next : Nat

/-- `part.Copy()`: allocate a fresh reference holding the same part value,
leaving every existing reference untouched. -/
def Store.copyPart (s : Store) (r : Nat) : Store × Nat :=
  ({ mem := fun q => if q = s.next then s.mem r else s.mem q,
     next := s.next + 1 }, s.next)

/-- Overwrite, in place, the metadata of the part at `r`. -/
def Store.setMeta (s : Store) (r : Nat) (md : List (String × String)) :
    Store :=
  { mem := fun q => if q = r then { s.mem r with metadata := md }
                    else s.mem q,
    next := s.next }

/-- A condition in the store embedding: a read-only boolean check of part
`i` of the referenced batch. -/
abbrev CondS := Store → RBatch → Nat → Bool

/-- A sub-processor in the store embedding: it reads and may mutate the
store and returns reference batches. -/
abbrev ProcS := Store → RBatch → Store × List RBatch × Option Response

/-- One configured group in the store embedding. -/
structure GroupS where
  Condition : CondS
  Processors : List ProcS

/-- The `GroupBy` processor in the store embedding. -/
structure GroupByS where
  groups : List GroupS

/-- First matching group for part `i`, store-embedding version of
`firstMatch`. -/
def firstMatchS (gs : List GroupS) (s : Store) (msg : RBatch) (i : Nat) :
    Option Nat :=
  match gs with
  | [] => none
  | g :: rest =>
    if g.Condition s msg i then some 0
    else (firstMatchS rest s msg i).map (· + 1)

/-- One iteration of `msg.Iter` in the store embedding: the part is copied
into a fresh reference which is appended to the first matching group's
bucket or to the residual bucket. -/
def classifyStepS (gs : List GroupS) (msg : RBatch)
    (acc : Store × List RBatch × RBatch) (ip : Nat × Nat) :
    Store × List RBatch × RBatch :=
  match firstMatchS gs acc.1 msg ip.1 with
  | some j =>
    let c := acc.1.copyPart ip.2
    (c.1, acc.2.1.set j (acc.2.1.getD j [] ++ [c.2]), acc.2.2)
  | none =>
    let c := acc.1.copyPart ip.2
    (c.1, acc.2.1, acc.2.2 ++ [c.2])

/-- The routing loop in the store embedding. -/
def classifyGoS (gs : List GroupS) (msg : RBatch)
    (items : List (Nat × Nat)) (acc : Store × List RBatch × RBatch) :
    Store × List RBatch × RBatch :=
  match items with
  | [] => acc
  | ip :: rest => classifyGoS gs msg rest (classifyStepS gs msg acc ip)

/-- The routing phase in the store embedding. -/
def classifyS (gs : List GroupS) (s : Store) (msg : RBatch) :
    Store × List RBatch × RBatch :=
  classifyGoS gs msg msg.enum (s, List.replicate gs.length [], [])

/-- The inner chain loop in the store embedding, threading the store. -/
def runStageS (p : ProcS) :
    Store → List RBatch → Option Response →
      Store × List RBatch × Option Response
  | s, [], res => (s, [], res)
  | s, m :: ms, res =>
    let r := p s m
    let rest := runStageS p r.1 ms r.2.2
    (rest.1, r.2.1 ++ rest.2.1, rest.2.2)

/-- The per-group chain loop in the store embedding. -/
def runChainGoS :
    List ProcS → Store → List RBatch → Option Response →
      Store × List RBatch × Option Response
  | _, s, [], res => (s, [], res)
  | [], s, bs, res => (s, bs, res)
  | p :: ps, s, bs, res =>
    let st := runStageS p s bs res
    runChainGoS ps st.1 st.2.1 st.2.2

/-- The per-group processing loop in the store embedding. -/
def processGroupsS : List GroupS → Store → List RBatch → Store × List RBatch
  | g :: gs, s, b :: bs =>
    if b.length = 0 then processGroupsS gs s bs
    else
      let r := runChainGoS g.Processors s [b] none
      let rest := processGroupsS gs r.1 bs
      (rest.1, (if r.2.1.length > 0 then r.2.1 else []) ++ rest.2)
  | _, s, _ => (s, [])

/-- `GroupBy.ProcessMessage` in the store embedding. -/
def ProcessMessageS (g : GroupByS) (s : Store) (msg : RBatch) :
    Store × List RBatch × Option Response :=
  if msg.length = 0 then (s, [], some Response.ack)
  else
    let c := classifyS g.groups s msg
    let pg := processGroupsS g.groups c.1 c.2.1
    let msgs := if c.2.2.length > 0 then pg.2 ++ [c.2.2] else pg.2
    if msgs.length = 0 then (pg.1, [], some Response.ack)
    else (pg.1, msgs, none)

/-- A well-behaved stage for framing purposes: it never lowers the
allocation pointer, mutates only parts referenced from its input batch or
freshly allocated ones, and outputs only references from its input batch or
freshly allocated ones. -/
def FrameRespecting (p : ProcS) : Prop :=
  ∀ s b,
    s.next ≤ (p s b).1.next ∧
    (∀ r, r < s.next → r ∉ b → (p s b).1.mem r = s.mem r) ∧
    (∀ out ∈ (p s b).2.1, ∀ r ∈ out, r ∈ b ∨ s.next ≤ r)

/-- The store grows and the contents below `lo` are untouched. -/
def ExtBelow (lo : Nat) (s0 s1 : Store) : Prop :=
  s0.next ≤ s1.next ∧ ∀ r, r < lo → s1.mem r = s0.mem r

/-- All references of all listed batches are at least `lo`. -/
def RefsGE (lo : Nat) (bs : List RBatch) : Prop :=
  ∀ b ∈ bs, ∀ r ∈ b, lo ≤ r

/-- `msg.Copy()` of the metadata processor.  Modelled from the spec: the
message copy routine lives in the message package, which is not part of the
given source; per the spec's copy-on-write contract it duplicates every part
into a fresh one so that edits to the copy never reach the original. -/
def copyBatchS : Store → RBatch → Store × RBatch
  | s, [] => (s, [])
  | s, r :: rest =>
    let c := s.copyPart r
    let t := copyBatchS c.1 rest
    (t.1, c.2 :: t.2)

/-- The interpolation collaborator in the store embedding. -/
structure InterpEnvS where
  containsVars : String → Bool
  replaceVars : Store → RBatch → String → String

/-- An interpolation resolver only reads the message it is given: its
result depends only on the contents of the referenced parts. -/
def ReadsOnlyS (env : InterpEnvS) : Prop :=
  ∀ s s' (msg : RBatch) v, (∀ r ∈ msg, s.mem r = s'.mem r) →
    env.replaceVars s msg v = env.replaceVars s' msg v

/-- One iteration of the metadata target loop in the store embedding:
mutate, in place, the metadata of the part referenced at the target index
(out-of-range indices, whose accessor is not part of the given source, are
modelled from the spec as no-ops). -/
def applyAtIdxS (op : metadataOperator) (value : String) (msg : RBatch)
    (s : Store) (idx : Int) : Store :=
  if 0 ≤ idx ∧ idx.toNat < msg.length then
    let r := msg.getD idx.toNat 0
    s.setMeta r (op (s.mem r).metadata value).1
  else s

/-- `Metadata.ProcessMessage` in the store embedding: copy the message,
resolve the value once, edit each targeted part of the copy in place, and
return the copy with a nil response. -/
def MetadataProcessMessageS (env : InterpEnvS) (p : MetadataProc)
    (s : Store) (msg : RBatch) : Store × List RBatch × Option Response :=
  let c := copyBatchS s msg
  let value := if p.interpolate then env.replaceVars c.1 msg p.valueBytes
               else p.valueBytes
  let targets :=
    if p.parts.length = 0
    then (List.range c.2.length).map (fun i : Nat => (i : Int))
    else p.parts
  let s2 := targets.foldl (applyAtIdxS p.operator value c.2) c.1
  (s2, [c.2], none)

/-- The value every edit uses, written against the original store. -/
def resolvedValueS (env : InterpEnvS) (p : MetadataProc) (s : Store)
    (msg : RBatch) : String :=
  if p.interpolate then env.replaceVars s msg p.valueBytes else p.valueBytes

/-! ## Concrete instances, used to instantiate hypotheses of the theorems -/

/-- A part with the given payload and no metadata. -/
def exPart (s : String) : Part := { content := s, metadata := [] }

/-- A condition that always passes. -/
def condTrue : CondFn := fun _ _ => true

/-- A condition that never passes. -/
def condFalse : CondFn := fun _ _ => false

/-- A condition passing on parts whose payload contains "foo". -/
def condFoo : CondFn := fun b i =>
  ((b.getD i default).content.splitOn "foo").length > 1

/-- A pass-through processor. -/
def procNoop : ProcFn := fun b => ([b], none)

/-- A processor consuming every batch into zero batches. -/
def procDrop : ProcFn := fun _ => ([], none)

/-- A processor expanding one batch into two. -/
def procDup : ProcFn := fun b => ([b, b], none)

/-- A pass-through processor that reports an error response. -/
def procErr : ProcFn := fun b => ([b], some (Response.error "boom"))

/-- A stage that turns any batch into one zero-part batch. -/
def procEmptyBatch : ProcFn := fun _ => ([[]], none)

/-- A one-group processor whose single stage yields an empty batch. -/
def gbEmptyStage : GroupBy :=
  { groups := [{ Condition := condTrue, Processors := [procEmptyBatch] }] }

/-- An interpolation environment with no function variables. -/
def envEx : InterpEnv :=
  { containsVars := fun _ => false, replaceVars := fun _ s => s }

/-- A metadata stage setting key "k" to "v" on all parts. -/
def mpEx : MetadataProc :=
  { interpolate := false, valueBytes := "v",
    operator := newMetadataSetOperator "k", parts := [] }

/-- The batch `mpEx` produces from two bare parts "a" and "b". -/
def mdOutEx : Batch :=
  [{ content := "a", metadata := [("k", "v")] },
   { content := "b", metadata := [("k", "v")] }]

/-- A store-embedding condition that always passes. -/
def condTrueS : CondS := fun _ _ _ => true

/-- A store-embedding pass-through stage. -/
def procNoopS : ProcS := fun s b => (s, [b], none)

/-- A one-part store: reference 0 holds part "x". -/
def sEx : Store := { mem := fun _ => exPart "x", next := 1 }

/-- A one-group store-embedding processor with a pass-through stage. -/
def gbSEx : GroupByS :=
  { groups := [{ Condition := condTrueS, Processors := [procNoopS] }] }

/-- A store-embedding interpolation environment without variables. -/
def envSEx : InterpEnvS :=
  { containsVars := fun _ => false, replaceVars := fun _ _ v => v }

/-! ## Helper lemmas -/

theorem Part.copy_eq (p : Part) : p.copy = p := rfl

theorem getD_set_self {α : Type _} (l : List α) (j : Nat) (a d : α)
    (h : j < l.length) : (l.set j a).getD j d = a := by
  simp [List.getD_eq_getElem?_getD, List.getElem?_set, h]

theorem getD_set_ne {α : Type _} (l : List α) (i j : Nat) (a d : α)
    (h : i ≠ j) : (l.set i a).getD j d = l.getD j d := by
  simp [List.getD_eq_getElem?_getD, List.getElem?_set, h]

theorem firstMatch_lt {gs : List Group} {msg : Batch} {i j : Nat}
    (h : firstMatch gs msg i = some j) : j < gs.length := by
  induction gs generalizing j with
  | nil => simp [firstMatch] at h
  | cons g rest ih =>
    by_cases hc : g.Condition msg i
    · simp [firstMatch, hc] at h
      simp only [List.length_cons]
      omega
    · simp [firstMatch, hc, Option.map_eq_some'] at h
      obtain ⟨a, ha, rfl⟩ := h
      have := ih ha
      simp only [List.length_cons]
      omega

theorem condAt_nil (msg : Batch) (i j : Nat) :
    condAt [] msg i j = false := by
  simp [condAt, defaultGroup]

theorem condAt_cons_zero (g : Group) (rest : List Group) (msg : Batch)
    (i : Nat) : condAt (g :: rest) msg i 0 = g.Condition msg i := rfl

theorem condAt_cons_succ (g : Group) (rest : List Group) (msg : Batch)
    (i k : Nat) : condAt (g :: rest) msg i (k + 1) = condAt rest msg i k :=
  rfl

/-- The routing decision is first-match-wins: part `i` resolves to group `j`
exactly when group `j`'s condition passes and no earlier group's does. -/
theorem firstMatch_eq_some_iff {gs : List Group} {msg : Batch} {i j : Nat} :
    firstMatch gs msg i = some j ↔
      (condAt gs msg i j = true ∧ ∀ k, k < j → condAt gs msg i k = false) := by
  induction gs generalizing j with
  | nil =>
    simp [firstMatch, condAt_nil]
  | cons g rest ih =>
    rw [firstMatch]
    by_cases hc : g.Condition msg i
    · rw [if_pos hc]
      constructor
      · intro h
        have hj : j = 0 := by
          injection h with h
          omega
        subst hj
        exact ⟨hc, by omega⟩
      · rintro ⟨h1, h2⟩
        match j with
        | 0 => rfl
        | j + 1 =>
          have h0 := h2 0 (by omega)
          rw [condAt_cons_zero] at h0
          rw [hc] at h0
          cases h0
    · rw [if_neg hc]
      match j with
      | 0 =>
        simp only [Option.map_eq_some']
        constructor
        · rintro ⟨a, _, ha⟩
          omega
        · rintro ⟨h1, _⟩
          rw [condAt_cons_zero] at h1
          rw [h1] at hc
          exact absurd rfl hc
      | j + 1 =>
        simp only [Option.map_eq_some']
        constructor
        · rintro ⟨a, ha, haj⟩
          have hj : a = j := by omega
          subst hj
          obtain ⟨c1, c2⟩ := ih.mp ha
          refine ⟨c1, ?_⟩
          intro k hk
          match k with
          | 0 =>
            rw [condAt_cons_zero]
            simpa using hc
          | k + 1 =>
            rw [condAt_cons_succ]
            exact c2 k (by omega)
        · rintro ⟨c1, c2⟩
          refine ⟨j, ih.mpr ⟨c1, ?_⟩, rfl⟩
          intro k hk
          have hk1 := c2 (k + 1) (by omega)
          rwa [condAt_cons_succ] at hk1

/-- A part falls through to the residual bucket exactly when no group's
condition passes for it. -/
theorem firstMatch_eq_none_iff {gs : List Group} {msg : Batch} {i : Nat} :
    firstMatch gs msg i = none ↔ ∀ k, condAt gs msg i k = false := by
  induction gs with
  | nil =>
    simp [firstMatch, condAt_nil]
  | cons g rest ih =>
    rw [firstMatch]
    by_cases hc : g.Condition msg i
    · rw [if_pos hc]
      constructor
      · intro h
        cases h
      · intro h
        have h0 := h 0
        rw [condAt_cons_zero] at h0
        rw [hc] at h0
        cases h0
    · rw [if_neg hc]
      simp only [Option.map_eq_none']
      rw [ih]
      constructor
      · intro h k
        match k with
        | 0 =>
          rw [condAt_cons_zero]
          simpa using hc
        | k + 1 =>
          rw [condAt_cons_succ]
          exact h k
      · intro h k
        have hk := h (k + 1)
        rwa [condAt_cons_succ] at hk

theorem classifyGo_fst_length (gs : List Group) (msg : Batch)
    (items : List (Nat × Part)) (acc : List Batch × Batch) :
    (classifyGo gs msg items acc).1.length = acc.1.length := by
  induction items generalizing acc with
  | nil => rfl
  | cons ip rest ih =>
    rw [classifyGo, ih]
    unfold classifyStep
    cases firstMatch gs msg ip.1 with
    | none => rfl
    | some j => simp

/-- Bucket `j` after the routing loop: whatever was there before, followed by
the parts whose first matching group is `j`, in traversal order. -/
theorem classifyGo_fst_getD (gs : List Group) (msg : Batch)
    (items : List (Nat × Part)) (acc : List Batch × Batch) (j : Nat)
    (hlen : acc.1.length = gs.length) :
    (classifyGo gs msg items acc).1.getD j [] =
      acc.1.getD j [] ++
        (items.filter (fun ip => firstMatch gs msg ip.1 == some j)).map
          (fun ip => ip.2) := by
  induction items generalizing acc with
  | nil => simp [classifyGo]
  | cons ip rest ih =>
    rw [classifyGo]
    rw [List.filter_cons]
    cases hm : firstMatch gs msg ip.1 with
    | none =>
      rw [ih _ (by simpa [classifyStep, hm] using hlen)]
      simp [classifyStep, hm]
    | some j0 =>
      have hacc : (classifyStep gs msg acc ip).1.length = gs.length := by
        simp [classifyStep, hm, hlen]
      rw [ih _ hacc]
      by_cases hj : j0 = j
      · subst hj
        have hset : (classifyStep gs msg acc ip).1.getD j0 [] =
            acc.1.getD j0 [] ++ [ip.2] := by
          simp only [classifyStep, hm]
          rw [getD_set_self]
          · rw [Part.copy_eq]
          · rw [hlen]
            exact firstMatch_lt hm
        rw [hset]
        simp
      · have hset : (classifyStep gs msg acc ip).1.getD j [] =
            acc.1.getD j [] := by
          simp only [classifyStep, hm]
          exact getD_set_ne _ _ _ _ _ hj
        rw [hset]
        have hbeq : (some j0 == some j) = false := by
          simp [hj]
        rw [hbeq]
        simp

/-- The residual bucket after the routing loop: whatever was there before,
followed by the parts matching no group, in traversal order. -/
theorem classifyGo_snd (gs : List Group) (msg : Batch)
    (items : List (Nat × Part)) (acc : List Batch × Batch) :
    (classifyGo gs msg items acc).2 =
      acc.2 ++
        (items.filter (fun ip => (firstMatch gs msg ip.1).isNone)).map
          (fun ip => ip.2) := by
  induction items generalizing acc with
  | nil => simp [classifyGo]
  | cons ip rest ih =>
    rw [classifyGo]
    rw [List.filter_cons]
    cases hm : firstMatch gs msg ip.1 with
    | none =>
      rw [ih]
      simp [classifyStep, hm, Part.copy_eq]
    | some j0 =>
      rw [ih]
      simp [classifyStep, hm]

theorem getD_replicate_nil (n j : Nat) :
    (List.replicate n ([] : Batch)).getD j [] = [] := by
  rw [List.getD_eq_getElem?_getD, List.getElem?_replicate]
  by_cases h : j < n
  · rw [if_pos h]
    rfl
  · rw [if_neg h]
    rfl

/-- Working batch `j` of the routing phase, described from the input: the
parts of `msg` whose first matching group is `j`, in input order. -/
theorem classify_fst_getD (gs : List Group) (msg : Batch) (j : Nat) :
    (classify gs msg).1.getD j [] =
      (msg.enum.filter (fun ip => firstMatch gs msg ip.1 == some j)).map
        (fun ip => ip.2) := by
  rw [classify, classifyGo_fst_getD gs msg _ _ j (by simp)]
  rw [getD_replicate_nil]
  rfl

/-- The residual bucket, described from the input: the parts of `msg`
matching no group, in input order. -/
theorem classify_snd (gs : List Group) (msg : Batch) :
    (classify gs msg).2 =
      (msg.enum.filter (fun ip => (firstMatch gs msg ip.1).isNone)).map
        (fun ip => ip.2) := by
  rw [classify, classifyGo_snd]
  rfl

theorem sum_map_length_set_append (l : List Batch) (j : Nat) (p : Part)
    (h : j < l.length) :
    ((l.set j (l.getD j [] ++ [p])).map List.length).sum =
      (l.map List.length).sum + 1 := by
  induction l generalizing j with
  | nil => cases h
  | cons x xs ih =>
    match j with
    | 0 =>
      simp [List.set]
      omega
    | j + 1 =>
      have hj : j < xs.length := by
        simpa using h
      simp only [List.set, List.getD_cons_succ, List.map_cons, List.sum_cons]
      rw [ih j hj]
      omega

theorem classifyGo_total (gs : List Group) (msg : Batch)
    (items : List (Nat × Part)) (acc : List Batch × Batch)
    (hlen : acc.1.length = gs.length) :
    ((classifyGo gs msg items acc).1.map List.length).sum +
        (classifyGo gs msg items acc).2.length =
      (acc.1.map List.length).sum + acc.2.length + items.length := by
  induction items generalizing acc with
  | nil => simp [classifyGo]
  | cons ip rest ih =>
    rw [classifyGo]
    cases hm : firstMatch gs msg ip.1 with
    | none =>
      rw [ih _ (by simpa [classifyStep, hm] using hlen)]
      simp [classifyStep, hm]
      omega
    | some j0 =>
      rw [ih _ (by simp [classifyStep, hm, hlen])]
      have hset : ((classifyStep gs msg acc ip).1.map List.length).sum =
          (acc.1.map List.length).sum + 1 := by
        simp only [classifyStep, hm]
        exact sum_map_length_set_append _ _ _ (by rw [hlen]; exact firstMatch_lt hm)
      have hsnd : (classifyStep gs msg acc ip).2 = acc.2 := by
        simp [classifyStep, hm]
      rw [hset, hsnd]
      simp
      omega

/-! ## Claim theorems: routing phase -/

/-- C1: every part of the input batch is routed to exactly one destination,
so the sum of the part counts of all group working batches plus the residual
batch equals the input batch's part count. -/
theorem groupBy_conservation (gs : List Group) (msg : Batch) :
    ((classify gs msg).1.map List.length).sum +
        (classify gs msg).2.length = msg.length := by
  rw [classify, classifyGo_total gs msg _ _ (by simp)]
  simp [List.enum_length]

/-- C2: assignment is first-match-wins over the configured group order:
bucket `j` holds exactly the parts whose first matching group index is `j`;
a part satisfying the conditions of groups `i < j` is never routed to group
`j`; routing to `j` happens exactly when `j`'s condition passes and no
earlier one does; and a part is placed in the residual bucket if and only if
no configured group's condition passes for it. -/
theorem groupBy_first_match_assignment (gs : List Group) (msg : Batch) :
    (∀ j, (classify gs msg).1.getD j [] =
        (msg.enum.filter (fun ip => firstMatch gs msg ip.1 == some j)).map
          (fun ip => ip.2))
    ∧ ((classify gs msg).2 =
        (msg.enum.filter (fun ip => (firstMatch gs msg ip.1).isNone)).map
          (fun ip => ip.2))
    ∧ (∀ k i j, i < j → condAt gs msg k i = true →
        firstMatch gs msg k ≠ some j)
    ∧ (∀ k j, firstMatch gs msg k = some j ↔
        (condAt gs msg k j = true ∧ ∀ i, i < j → condAt gs msg k i = false))
    ∧ (∀ k, firstMatch gs msg k = none ↔
        ∀ i, condAt gs msg k i = false) := by
  refine ⟨classify_fst_getD gs msg, classify_snd gs msg, ?_,
    fun k j => firstMatch_eq_some_iff, fun k => firstMatch_eq_none_iff⟩
  intro k i j hij hc hm
  obtain ⟨c1, c2⟩ := firstMatch_eq_some_iff.mp hm
  have hcontra := c2 i hij
  rw [hc] at hcontra
  cases hcontra

/-- Closed instance of the first-match theorem: with two always-passing
groups, part 0 of a one-part batch is not routed to group 1, and with no
passing group the part is residual. -/
theorem groupBy_first_match_assignment_witness :
    firstMatch [{ Condition := condTrue, Processors := [] },
      { Condition := condTrue, Processors := [] }] [exPart "a"] 0 ≠
        some 1 :=
  (groupBy_first_match_assignment
      [{ Condition := condTrue, Processors := [] },
        { Condition := condTrue, Processors := [] }]
      [exPart "a"]).2.2.1 0 0 1 (by decide) (by decide)

/-- C3: within each group's working batch and within the residual batch, the
parts appear in the same relative order they had in the input batch (each is
an order-preserving selection, i.e. a sublist, of the input). -/
theorem groupBy_order_preservation (gs : List Group) (msg : Batch) :
    (∀ j, List.Sublist ((classify gs msg).1.getD j []) msg)
    ∧ List.Sublist (classify gs msg).2 msg := by
  have hsnd : (fun ip : Nat × Part => ip.2) = Prod.snd := rfl
  constructor
  · intro j
    rw [classify_fst_getD]
    have h1 := List.filter_sublist
      (p := fun ip => firstMatch gs msg ip.1 == some j) msg.enum
    have h2 := List.Sublist.map (fun ip : Nat × Part => ip.2) h1
    rw [hsnd] at h2
    rwa [List.enum_map_snd] at h2
  · rw [classify_snd]
    have h1 := List.filter_sublist
      (p := fun ip => (firstMatch gs msg ip.1).isNone) msg.enum
    have h2 := List.Sublist.map (fun ip : Nat × Part => ip.2) h1
    rw [hsnd] at h2
    rwa [List.enum_map_snd] at h2

/-! ## Claim theorems: result shape of ProcessMessage -/

/-- C4: the processor answers "nothing to forward" (an ack with zero output
batches, never an error) exactly when the input batch is empty or the
combined collection of group outputs and residual is empty; otherwise it
returns that collection with a nil (success) response. -/
theorem groupBy_ack_iff (g : GroupBy) (msg : Batch) :
    (ProcessMessage g msg = ([], some Response.ack) ↔
      (msg = [] ∨ collectOutputs g msg = []))
    ∧ (msg ≠ [] → collectOutputs g msg ≠ [] →
        ProcessMessage g msg = (collectOutputs g msg, none)) := by
  unfold ProcessMessage
  by_cases h : msg.length = 0
  · rw [if_pos h]
    have hmsg : msg = [] := List.length_eq_zero.mp h
    simp [hmsg]
  · rw [if_neg h]
    have hmsg : msg ≠ [] := fun hc => h (by rw [hc]; rfl)
    by_cases h2 : (collectOutputs g msg).length = 0
    · rw [if_pos h2]
      have hc : collectOutputs g msg = [] := List.length_eq_zero.mp h2
      simp [hmsg, hc]
    · rw [if_neg h2]
      have hc : collectOutputs g msg ≠ [] := fun hce => h2 (by rw [hce]; rfl)
      constructor
      · constructor
        · intro hcontra
          have := congrArg Prod.snd hcontra
          simp at this
        · intro hcontra
          cases hcontra with
          | inl h3 => exact absurd h3 hmsg
          | inr h3 => exact absurd h3 hc
      · intro _ _
        rfl

/-- Closed instance of the ack characterization: a single always-matching
group with a pass-through stage forwards the one-part batch. -/
theorem groupBy_ack_iff_witness :
    ProcessMessage
        { groups := [{ Condition := condTrue, Processors := [procNoop] }] }
        [exPart "a"] =
      (collectOutputs
        { groups := [{ Condition := condTrue, Processors := [procNoop] }] }
        [exPart "a"], none) :=
  (groupBy_ack_iff
      { groups := [{ Condition := condTrue, Processors := [procNoop] }] }
      [exPart "a"]).2 (by decide) (by decide)

/-! ## Chain execution lemmas -/

/-- One stage pass produces, batch-wise, the concatenation of what the stage
yields on every batch of the working set, whatever response is threaded
through. -/
theorem runStage_fst (p : ProcFn) (bs : List Batch) (res : Option Response) :
    (runStage p bs res).1 = (bs.map (fun m => (p m).1)).flatten := by
  induction bs generalizing res with
  | nil => rfl
  | cons m ms ih =>
    rw [runStage]
    simp only [List.map_cons, List.flatten_cons]
    rw [ih]

/-- The batch output of a chain depends only on the batch outputs of its
stages, never on the responses they report. -/
theorem runChainGo_fst_congr :
    ∀ {ps ps' : List ProcFn},
      List.Forall₂ (fun p p' : ProcFn => ∀ m, (p m).1 = (p' m).1) ps ps' →
      ∀ bs res res',
        (runChainGo ps bs res).1 = (runChainGo ps' bs res').1 := by
  intro ps ps' h
  induction h with
  | nil =>
    intro bs res res'
    cases bs <;> rfl
  | @cons p q ps1 ps2 hp htail ih =>
    intro bs res res'
    cases bs with
    | nil => rfl
    | cons b bs2 =>
      show (runChainGo ps1 (runStage p (b :: bs2) res).1
          (runStage p (b :: bs2) res).2).1 =
        (runChainGo ps2 (runStage q (b :: bs2) res').1
          (runStage q (b :: bs2) res').2).1
      have hfst : (runStage p (b :: bs2) res).1 =
          (runStage q (b :: bs2) res').1 := by
        rw [runStage_fst, runStage_fst]
        congr 1
        exact List.map_congr_left (fun m _ => hp m)
      rw [hfst]
      exact ih _ _ _

theorem firstMatch_congr {gs gs' : List Group} {msg : Batch} {i : Nat}
    (hlen : gs.length = gs'.length)
    (hcond : ∀ j, condAt gs msg i j = condAt gs' msg i j) :
    firstMatch gs msg i = firstMatch gs' msg i := by
  induction gs generalizing gs' with
  | nil =>
    cases gs' with
    | nil => rfl
    | cons _ _ => cases hlen
  | cons g rest ih =>
    cases gs' with
    | nil => cases hlen
    | cons g' rest' =>
      have h0 := hcond 0
      rw [condAt_cons_zero, condAt_cons_zero] at h0
      rw [firstMatch, firstMatch, h0]
      by_cases hc : g'.Condition msg i
      · rw [if_pos hc, if_pos hc]
      · rw [if_neg hc, if_neg hc]
        rw [ih (by simpa using hlen) (fun j => by
          have := hcond (j + 1)
          rwa [condAt_cons_succ, condAt_cons_succ] at this)]

/-- Routing depends only on the conditions, not on any group's processor
list. -/
theorem classify_congr {gs gs' : List Group} {msg : Batch}
    (hlen : gs.length = gs'.length)
    (hcond : ∀ i j, condAt gs msg i j = condAt gs' msg i j) :
    classify gs msg = classify gs' msg := by
  rw [classify, classify, hlen]
  generalize (List.replicate gs'.length ([] : Batch), ([] : Batch)) = acc
  generalize msg.enum = items
  induction items generalizing acc with
  | nil => rfl
  | cons ip rest ih =>
    rw [classifyGo, classifyGo]
    have hstep : classifyStep gs msg acc ip = classifyStep gs' msg acc ip := by
      unfold classifyStep
      rw [firstMatch_congr hlen (hcond ip.1)]
    rw [hstep]
    exact ih _

/-- If bucket `i` is empty, replacing group `i` (in particular its processor
list) does not change the processing loop's output. -/
theorem processGroups_set_of_empty (gs : List Group) (bs : List Batch)
    (i : Nat) (grp : Group) (h : bs.getD i [] = []) :
    processGroups (gs.set i grp) bs = processGroups gs bs := by
  induction gs generalizing bs i with
  | nil => rfl
  | cons g rest ih =>
    cases bs with
    | nil =>
      cases i <;> rfl
    | cons b bs2 =>
      match i with
      | 0 =>
        have hb : b = [] := by simpa using h
        subst hb
        rfl
      | i + 1 =>
        have h2 : bs2.getD i [] = [] := by simpa using h
        show processGroups (g :: rest.set i grp) (b :: bs2) = _
        rw [processGroups, processGroups]
        rw [ih bs2 i h2]

theorem setProcs_classify (g : GroupBy) (msg : Batch) (i : Nat)
    (ps : List ProcFn) :
    classify (setProcs g i ps).groups msg = classify g.groups msg := by
  by_cases hi : i < g.groups.length
  · apply classify_congr
    · simp [setProcs]
    · intro k j
      unfold condAt setProcs
      by_cases hj : i = j
      · subst hj
        simp only
        rw [getD_set_self _ _ _ _ hi]
      · simp only
        rw [getD_set_ne _ _ _ _ _ hj]
  · unfold setProcs
    simp only
    rw [List.set_eq_of_length_le (by omega)]

theorem setProcs_collect_of_empty (g : GroupBy) (msg : Batch) (i : Nat)
    (ps : List ProcFn) (h : (classify g.groups msg).1.getD i [] = []) :
    collectOutputs (setProcs g i ps) msg = collectOutputs g msg := by
  have hcl := setProcs_classify g msg i ps
  have hpg : processGroups (setProcs g i ps).groups
      (classify g.groups msg).1 =
      processGroups g.groups (classify g.groups msg).1 := by
    simp only [setProcs]
    exact processGroups_set_of_empty _ _ _ _ h
  unfold collectOutputs
  rw [hcl, hpg]

/-- C5: chain execution over a non-empty group bucket is a fold of the
stage list over a working set of batches that starts as the single group
batch: each stage maps over every working batch, the working set becoming
the concatenation of the produced batches, with the remaining stages
skipped once the working set is empty; and a group whose bucket is empty
never has its chain invoked (replacing its stages cannot change the
result). -/
theorem groupBy_chain_fold :
    (∀ (p : ProcFn) bs res,
        (runStage p bs res).1 = (bs.map (fun m => (p m).1)).flatten)
    ∧ (∀ (ps : List ProcFn) res, runChainGo ps [] res = ([], res))
    ∧ (∀ (p : ProcFn) ps bs res, runChainGo (p :: ps) bs res =
        runChainGo ps (runStage p bs res).1 (runStage p bs res).2)
    ∧ (∀ (g : Group) gs b bs, b ≠ [] →
        processGroups (g :: gs) (b :: bs) =
          (runChainGo g.Processors [b] none).1 ++ processGroups gs bs)
    ∧ (∀ (g : GroupBy) msg i ps,
        (classify g.groups msg).1.getD i [] = [] →
        ProcessMessage (setProcs g i ps) msg = ProcessMessage g msg) := by
  refine ⟨runStage_fst, ?_, ?_, ?_, ?_⟩
  · intro ps res
    cases ps <;> rfl
  · intro p ps bs res
    cases bs with
    | nil => cases ps <;> rfl
    | cons b bs2 => rfl
  · intro g gs b bs hb
    rw [processGroups]
    have hlen : ¬ b.length = 0 := by
      intro hc
      exact hb (List.length_eq_zero.mp hc)
    rw [if_neg hlen]
    congr 1
    by_cases hr : (runChainGo g.Processors [b] none).1.length > 0
    · rw [if_pos hr]
    · rw [if_neg hr]
      have : (runChainGo g.Processors [b] none).1 = [] := by
        apply List.length_eq_zero.mp
        omega
      rw [this]
  · intro g msg i ps h
    have hcollect := setProcs_collect_of_empty g msg i ps h
    unfold ProcessMessage
    rw [hcollect]

/-- Closed instance of the chain-fold theorem: replacing the stages of a
group whose bucket came out empty leaves the result unchanged. -/
theorem groupBy_chain_fold_witness :
    ProcessMessage
        (setProcs
          { groups := [{ Condition := condFalse, Processors := [procNoop] }] }
          0 [procDup])
        [exPart "a"] =
      ProcessMessage
        { groups := [{ Condition := condFalse, Processors := [procNoop] }] }
        [exPart "a"] :=
  groupBy_chain_fold.2.2.2.2
    { groups := [{ Condition := condFalse, Processors := [procNoop] }] }
    [exPart "a"] 0 [procDup] (by decide)

/-- C6 counterexample: when a stage yields a zero-part batch, the code
forwards it, whereas the claimed collection (only NON-EMPTY surviving
batches plus residual) would be empty; at this input the processor returns
one empty batch rather than the claimed "nothing to forward". -/
theorem groupBy_output_shape_counterexample :
    ProcessMessage gbEmptyStage [exPart "a"] = ([([] : Batch)], none) ∧
      collectOutputs gbEmptyStage [exPart "a"] ≠
        collectOutputsSpec gbEmptyStage [exPart "a"] := by
  decide

theorem processGroups_eq_groupOutputsAll (gs : List Group)
    (bs : List Batch) : processGroups gs bs = groupOutputsAll gs bs := by
  induction gs generalizing bs with
  | nil => cases bs <;> rfl
  | cons g rest ih =>
    cases bs with
    | nil => rfl
    | cons b bs2 =>
      rw [processGroups, groupOutputsAll, ih]
      congr 1
      by_cases hb : b = []
      · subst hb
        simp
      · have hlen : ¬ b.length = 0 := fun hc => hb (List.length_eq_zero.mp hc)
        rw [if_neg hlen, if_neg hb]
        by_cases hr : (runChainGo g.Processors [b] none).1.length > 0
        · rw [if_pos hr]
        · rw [if_neg hr]
          have hnil : (runChainGo g.Processors [b] none).1 = [] := by
            apply List.length_eq_zero.mp
            omega
          rw [hnil]

/-- C6 as amended: the output collection consists of, in group
configuration order, every batch (empty or not) surviving each group's
chain execution, followed, when the residual batch is non-empty, by the
residual batch appended last; the residual batch is never passed through
any transform stage: it is verbatim the unmatched input parts. -/
theorem groupBy_output_shape (g : GroupBy) (msg : Batch) :
    (collectOutputs g msg =
      groupOutputsAll g.groups (classify g.groups msg).1 ++
        (if (classify g.groups msg).2 = [] then []
         else [(classify g.groups msg).2]))
    ∧ ((classify g.groups msg).2 =
        (msg.enum.filter
          (fun ip => (firstMatch g.groups msg ip.1).isNone)).map
            (fun ip => ip.2)) := by
  refine ⟨?_, classify_snd g.groups msg⟩
  unfold collectOutputs
  rw [processGroups_eq_groupOutputsAll]
  by_cases hres : (classify g.groups msg).2 = []
  · rw [if_pos hres]
    have hlen : ¬ (classify g.groups msg).2.length > 0 := by
      rw [hres]
      simp
    rw [if_neg hlen]
    simp
  · rw [if_neg hres]
    have hlen : (classify g.groups msg).2.length > 0 :=
      List.length_pos.mpr hres
    rw [if_pos hlen]

/-- C8: a stage error during one group's chain is non-fatal: the caller
always sees either an explicit acknowledgement or a non-empty batch
collection with a nil response, never an error result; and a chain's batch
output depends only on the batch outputs of its stages, never on the
responses (errors) they report, so reported errors discard nothing. -/
theorem groupBy_processing_errors_nonfatal :
    (∀ (g : GroupBy) msg,
        ProcessMessage g msg = ([], some Response.ack) ∨
          ∃ bs, bs ≠ [] ∧ ProcessMessage g msg = (bs, none))
    ∧ (∀ (ps ps' : List ProcFn) bs res res',
        List.Forall₂ (fun p p' : ProcFn => ∀ m, (p m).1 = (p' m).1) ps ps' →
        (runChainGo ps bs res).1 = (runChainGo ps' bs res').1) := by
  constructor
  · intro g msg
    unfold ProcessMessage
    by_cases h : msg.length = 0
    · rw [if_pos h]
      left
      rfl
    · rw [if_neg h]
      by_cases h2 : (collectOutputs g msg).length = 0
      · rw [if_pos h2]
        left
        rfl
      · rw [if_neg h2]
        right
        exact ⟨collectOutputs g msg,
          fun hc => h2 (by rw [hc]; rfl), rfl⟩
  · intro ps ps' bs res res' h
    exact runChainGo_fst_congr h bs res res'

/-- Closed instance of the non-fatal error theorem: an error-reporting
pass-through stage produces the same batches as a silent one. -/
theorem groupBy_processing_errors_nonfatal_witness :
    (runChainGo [procErr] [[exPart "a"]] none).1 =
      (runChainGo [procNoop] [[exPart "a"]] none).1 :=
  groupBy_processing_errors_nonfatal.2 [procErr] [procNoop]
    [[exPart "a"]] none none
    (List.Forall₂.cons (fun _ => rfl) List.Forall₂.nil)

/-! ## Metadata processor lemmas -/

theorem applyAtIdx_length (op : metadataOperator) (v : String) (m : Batch)
    (idx : Int) : (applyAtIdx op v m idx).length = m.length := by
  unfold applyAtIdx
  by_cases h : 0 ≤ idx ∧ idx.toNat < m.length
  · rw [if_pos h]
    simp
  · rw [if_neg h]

theorem foldl_applyAtIdx_length (op : metadataOperator) (v : String)
    (l : List Int) (m : Batch) :
    (l.foldl (applyAtIdx op v) m).length = m.length := by
  induction l generalizing m with
  | nil => rfl
  | cons idx rest ih =>
    rw [List.foldl_cons, ih, applyAtIdx_length]

theorem applyAtIdx_getD_untouched (op : metadataOperator) (v : String)
    (m : Batch) (idx : Int) (k : Nat) (h : idx ≠ (k : Int)) :
    (applyAtIdx op v m idx).getD k default = m.getD k default := by
  unfold applyAtIdx
  by_cases hg : 0 ≤ idx ∧ idx.toNat < m.length
  · rw [if_pos hg]
    apply getD_set_ne
    intro hc
    apply h
    omega
  · rw [if_neg hg]

theorem foldl_applyAtIdx_getD_untouched (op : metadataOperator) (v : String)
    (l : List Int) (m : Batch) (k : Nat) (h : (k : Int) ∉ l) :
    (l.foldl (applyAtIdx op v) m).getD k default = m.getD k default := by
  induction l generalizing m with
  | nil => rfl
  | cons idx rest ih =>
    rw [List.foldl_cons]
    rw [ih _ (fun hc => h (List.mem_cons_of_mem _ hc))]
    exact applyAtIdx_getD_untouched op v m idx k
      (fun hc => h (hc ▸ List.mem_cons_self idx rest))

theorem applyAtIdx_getD_self (op : metadataOperator) (v : String)
    (m : Batch) (k : Nat) (hk : k < m.length) :
    (applyAtIdx op v m ((k : Int))).getD k default =
      applyOp op v (m.getD k default) := by
  unfold applyAtIdx
  rw [if_pos ⟨by omega, by simpa using hk⟩]
  have htoNat : ((k : Int)).toNat = k := rfl
  rw [htoNat]
  exact getD_set_self _ _ _ _ hk

/-- Each in-range index of the batch after the target loop: edited once when
it is targeted (with the single resolved value), untouched otherwise. -/
theorem foldl_applyAtIdx_getD (op : metadataOperator) (v : String)
    (l : List Int) (m : Batch) (k : Nat) (hk : k < m.length)
    (hnd : l.Nodup) :
    (l.foldl (applyAtIdx op v) m).getD k default =
      (if (k : Int) ∈ l then applyOp op v (m.getD k default)
       else m.getD k default) := by
  induction l generalizing m with
  | nil => simp
  | cons idx rest ih =>
    rw [List.foldl_cons]
    have hnd2 : rest.Nodup := hnd.of_cons
    by_cases hidx : idx = (k : Int)
    · subst hidx
      have hnotin : (k : Int) ∉ rest := (List.nodup_cons.mp hnd).1
      rw [foldl_applyAtIdx_getD_untouched op v rest _ k hnotin]
      rw [applyAtIdx_getD_self op v m k hk]
      rw [if_pos (List.mem_cons_self _ _)]
    · rw [ih _ (by rw [applyAtIdx_length]; exact hk) hnd2]
      rw [applyAtIdx_getD_untouched op v m idx k hidx]
      by_cases hin : (k : Int) ∈ rest
      · rw [if_pos hin, if_pos (List.mem_cons_of_mem _ hin)]
      · rw [if_neg hin, if_neg ?_]
        intro hc
        cases List.mem_cons.mp hc with
        | inl h1 => exact hidx h1.symm
        | inr h2 => exact hin h2

theorem batchCopy_eq (msg : Batch) : batchCopy msg = msg := by
  unfold batchCopy
  rw [show Part.copy = id from funext Part.copy_eq]
  exact List.map_id msg

theorem metadata_ProcessMessage_eq (env : InterpEnv) (p : MetadataProc)
    (msg : Batch) :
    MetadataProc.ProcessMessage env p msg =
      ([(if p.parts.length = 0
          then (List.range msg.length).map (fun i : Nat => (i : Int))
          else p.parts).foldl
            (applyAtIdx p.operator (resolvedValue env p msg)) msg], none) := by
  unfold MetadataProc.ProcessMessage resolvedValue
  rw [batchCopy_eq]

/-- C9: the metadata stage always returns exactly one output batch, equal
in length to its input, with a nil response (it never fails at run time);
the configured operation is applied, with the one resolved value, to the
metadata of every part of the configured index subset, every part when the
subset is empty; and construction fails exactly when the operator name is
none of set, delete_all, delete_prefix. -/
theorem metadata_process_shape (env : InterpEnv) (p : MetadataProc)
    (msg : Batch) :
    (∃ out : Batch,
        MetadataProc.ProcessMessage env p msg = ([out], none) ∧
          out.length = msg.length)
    ∧ (p.parts.Nodup →
        ∀ out : Batch, MetadataProc.ProcessMessage env p msg = ([out], none) →
        ∀ k, k < msg.length →
          out.getD k default =
            (if p.parts = [] ∨ (k : Int) ∈ p.parts
             then applyOp p.operator (resolvedValue env p msg)
               (msg.getD k default)
             else msg.getD k default))
    ∧ (∀ opStr key,
        (∃ op, getMetadataOperator opStr key = Except.ok op) ↔
          (opStr = "set" ∨ opStr = "delete_all" ∨ opStr = "delete_prefix"))
    ∧ (∀ conf : MetadataConfig,
        (∃ m, NewMetadata env conf = Except.ok m) ↔
          (∃ op, getMetadataOperator conf.Operator conf.Key =
            Except.ok op)) := by
  refine ⟨?_, ?_, ?_, ?_⟩
  · refine ⟨_, metadata_ProcessMessage_eq env p msg, ?_⟩
    rw [foldl_applyAtIdx_length]
  · intro hnd out hout k hk
    rw [metadata_ProcessMessage_eq] at hout
    have hfst := congrArg Prod.fst hout
    have hout2 : out =
        (if p.parts.length = 0
          then (List.range msg.length).map (fun i : Nat => (i : Int))
          else p.parts).foldl
            (applyAtIdx p.operator (resolvedValue env p msg)) msg := by
      injection hfst with hhead _
      exact hhead.symm
    subst hout2
    by_cases hparts : p.parts = []
    · have hlen0 : p.parts.length = 0 := by rw [hparts]; rfl
      rw [if_pos hlen0]
      rw [foldl_applyAtIdx_getD _ _ _ _ _ hk
        (List.Nodup.map (fun a b h => Nat.cast_injective h)
          (List.nodup_range _))]
      rw [if_pos (by
        rw [List.mem_map]
        exact ⟨k, List.mem_range.mpr hk, rfl⟩)]
      rw [if_pos (Or.inl hparts)]
    · have hlen0 : ¬ p.parts.length = 0 := by
        intro hc
        exact hparts (List.length_eq_zero.mp hc)
      rw [if_neg hlen0]
      rw [foldl_applyAtIdx_getD _ _ _ _ _ hk hnd]
      by_cases hin : (k : Int) ∈ p.parts
      · rw [if_pos hin, if_pos (Or.inr hin)]
      · rw [if_neg hin, if_neg (by
          intro hc
          cases hc with
          | inl h1 => exact hparts h1
          | inr h2 => exact hin h2)]
  · intro opStr key
    constructor
    · rintro ⟨op, hop⟩
      unfold getMetadataOperator at hop
      split at hop
      · exact Or.inl rfl
      · exact Or.inr (Or.inl rfl)
      · exact Or.inr (Or.inr rfl)
      · cases hop
    · intro h
      rcases h with h | h | h <;> subst h
      · exact ⟨_, rfl⟩
      · exact ⟨_, rfl⟩
      · exact ⟨_, rfl⟩
  · intro conf
    unfold NewMetadata
    cases hop : getMetadataOperator conf.Operator conf.Key with
    | error e =>
      simp
    | ok op =>
      simp

/-- Closed instance of the metadata-stage theorem: with the default (empty)
parts subset and the set operator, part 1 of a two-part batch gets the key
bound to the value. -/
theorem metadata_process_shape_witness :
    mdOutEx.getD 1 default =
      (if mpEx.parts = [] ∨ ((1 : Nat) : Int) ∈ mpEx.parts
       then applyOp mpEx.operator
         (resolvedValue envEx mpEx [exPart "a", exPart "b"])
         ([exPart "a", exPart "b"].getD 1 default)
       else [exPart "a", exPart "b"].getD 1 default) :=
  (metadata_process_shape envEx mpEx [exPart "a", exPart "b"]).2.1
    (by decide) mdOutEx (by decide) 1 (by decide)

/-! ## Store lemmas -/

theorem ExtBelow.rfl (lo : Nat) (s : Store) : ExtBelow lo s s :=
  ⟨Nat.le_refl _, fun _ _ => Eq.refl _⟩

theorem ExtBelow.trans {lo : Nat} {s0 s1 s2 : Store}
    (h1 : ExtBelow lo s0 s1) (h2 : ExtBelow lo s1 s2) : ExtBelow lo s0 s2 :=
  ⟨Nat.le_trans h1.1 h2.1, fun r hr => (h2.2 r hr).trans (h1.2 r hr)⟩

theorem copyPart_next (s : Store) (r : Nat) :
    (s.copyPart r).1.next = s.next + 1 := rfl

theorem copyPart_ref (s : Store) (r : Nat) : (s.copyPart r).2 = s.next := rfl

theorem copyPart_mem_ne (s : Store) (r q : Nat) (h : q ≠ s.next) :
    (s.copyPart r).1.mem q = s.mem q := by
  simp [Store.copyPart, h]

theorem copyPart_mem_new (s : Store) (r : Nat) :
    (s.copyPart r).1.mem s.next = s.mem r := by
  simp [Store.copyPart]

theorem setMeta_next (s : Store) (r : Nat) (md : List (String × String)) :
    (s.setMeta r md).next = s.next := rfl

theorem setMeta_mem_ne (s : Store) (r q : Nat) (md : List (String × String))
    (h : q ≠ r) : (s.setMeta r md).mem q = s.mem q := by
  simp [Store.setMeta, h]

theorem setMeta_mem_self (s : Store) (r : Nat)
    (md : List (String × String)) :
    (s.setMeta r md).mem r = { s.mem r with metadata := md } := by
  simp [Store.setMeta]

theorem getD_mem_of_lt {α : Type _} (l : List α) (k : Nat) (d : α)
    (h : k < l.length) : l.getD k d ∈ l := by
  rw [List.getD_eq_getElem?_getD, List.getElem?_eq_getElem h]
  exact List.getElem_mem h

theorem refsGE_getD {lo : Nat} {bs : List RBatch} (h : RefsGE lo bs)
    (j : Nat) : ∀ r ∈ bs.getD j [], lo ≤ r := by
  intro r hr
  by_cases hj : j < bs.length
  · exact h _ (getD_mem_of_lt bs j [] hj) r hr
  · rw [List.getD_eq_getElem?_getD, List.getElem?_eq_none (by omega)] at hr
    cases hr

theorem copyPart_ext (s : Store) (r : Nat) (lo : Nat) (hlo : lo ≤ s.next) :
    ExtBelow lo s (s.copyPart r).1 := by
  constructor
  · rw [copyPart_next]
    omega
  · intro q hq
    exact copyPart_mem_ne s r q (by omega)

theorem classifyStepS_eq_some {gs : List GroupS} {msg : RBatch}
    {acc : Store × List RBatch × RBatch} {ip : Nat × Nat} {j : Nat}
    (h : firstMatchS gs acc.1 msg ip.1 = some j) :
    classifyStepS gs msg acc ip =
      ((acc.1.copyPart ip.2).1,
       acc.2.1.set j (acc.2.1.getD j [] ++ [acc.1.next]),
       acc.2.2) := by
  unfold classifyStepS
  rw [h]
  rfl

theorem classifyStepS_eq_none {gs : List GroupS} {msg : RBatch}
    {acc : Store × List RBatch × RBatch} {ip : Nat × Nat}
    (h : firstMatchS gs acc.1 msg ip.1 = none) :
    classifyStepS gs msg acc ip =
      ((acc.1.copyPart ip.2).1, acc.2.1, acc.2.2 ++ [acc.1.next]) := by
  unfold classifyStepS
  rw [h]
  rfl

theorem classifyStepS_ext (gs : List GroupS) (msg : RBatch)
    (acc : Store × List RBatch × RBatch) (ip : Nat × Nat) (lo : Nat)
    (hlo : lo ≤ acc.1.next) :
    ExtBelow lo acc.1 (classifyStepS gs msg acc ip).1 := by
  cases hm : firstMatchS gs acc.1 msg ip.1 with
  | some j =>
    rw [classifyStepS_eq_some hm]
    exact copyPart_ext acc.1 ip.2 lo hlo
  | none =>
    rw [classifyStepS_eq_none hm]
    exact copyPart_ext acc.1 ip.2 lo hlo

theorem classifyGoS_ext (gs : List GroupS) (msg : RBatch)
    (items : List (Nat × Nat)) :
    ∀ acc lo, lo ≤ acc.1.next →
      ExtBelow lo acc.1 (classifyGoS gs msg items acc).1 := by
  induction items with
  | nil => exact fun acc lo _ => ExtBelow.rfl lo acc.1
  | cons ip rest ih =>
    intro acc lo hlo
    rw [classifyGoS]
    have hstep := classifyStepS_ext gs msg acc ip lo hlo
    exact hstep.trans (ih _ lo (Nat.le_trans hlo hstep.1))

theorem classifyGoS_refs (gs : List GroupS) (msg : RBatch)
    (items : List (Nat × Nat)) :
    ∀ acc lo, lo ≤ acc.1.next → RefsGE lo acc.2.1 →
      (∀ r ∈ acc.2.2, lo ≤ r) →
      RefsGE lo (classifyGoS gs msg items acc).2.1 ∧
        (∀ r ∈ (classifyGoS gs msg items acc).2.2, lo ≤ r) := by
  induction items with
  | nil => exact fun acc lo _ h1 h2 => ⟨h1, h2⟩
  | cons ip rest ih =>
    intro acc lo hlo h1 h2
    rw [classifyGoS]
    have hnext : lo ≤ (classifyStepS gs msg acc ip).1.next :=
      Nat.le_trans hlo (classifyStepS_ext gs msg acc ip lo hlo).1
    refine ih _ lo hnext ?_ ?_
    · cases hm : firstMatchS gs acc.1 msg ip.1 with
      | some j =>
        rw [classifyStepS_eq_some hm]
        intro b hb r hr
        cases List.mem_or_eq_of_mem_set hb with
        | inl hin => exact h1 b hin r hr
        | inr heq =>
          subst heq
          cases List.mem_append.mp hr with
          | inl hold => exact refsGE_getD h1 j r hold
          | inr hnew =>
            have hr2 : r = acc.1.next := by simpa using hnew
            omega
      | none =>
        rw [classifyStepS_eq_none hm]
        exact h1
    · cases hm : firstMatchS gs acc.1 msg ip.1 with
      | some j =>
        rw [classifyStepS_eq_some hm]
        exact h2
      | none =>
        rw [classifyStepS_eq_none hm]
        intro r hr
        cases List.mem_append.mp hr with
        | inl hold => exact h2 r hold
        | inr hnew =>
          have hr2 : r = acc.1.next := by simpa using hnew
          omega

theorem runStageS_frame (p : ProcS) (hp : FrameRespecting p) (lo : Nat) :
    ∀ (bs : List RBatch) (s : Store) (res : Option Response),
      lo ≤ s.next → RefsGE lo bs →
      ExtBelow lo s (runStageS p s bs res).1 ∧
        RefsGE lo (runStageS p s bs res).2.1 := by
  intro bs
  induction bs with
  | nil =>
    intro s res hlo _
    exact ⟨ExtBelow.rfl lo s, fun b hb => by cases hb⟩
  | cons m ms ih =>
    intro s res hlo hbs
    obtain ⟨h1, h2, h3⟩ := hp s m
    have hm : ∀ r ∈ m, lo ≤ r := hbs m (List.mem_cons_self m ms)
    have hext1 : ExtBelow lo s (p s m).1 := by
      refine ⟨h1, ?_⟩
      intro r hr
      refine h2 r (by omega) ?_
      intro hin
      have := hm r hin
      omega
    have hms : RefsGE lo ms := fun b hb => hbs b (List.mem_cons_of_mem m hb)
    have hrec := ih (p s m).1 (p s m).2.2 (Nat.le_trans hlo hext1.1) hms
    constructor
    · show ExtBelow lo s (runStageS p (p s m).1 ms (p s m).2.2).1
      exact hext1.trans hrec.1
    · show RefsGE lo ((p s m).2.1 ++ (runStageS p (p s m).1 ms (p s m).2.2).2.1)
      intro b hb r hr
      cases List.mem_append.mp hb with
      | inl hin =>
        cases h3 b hin r hr with
        | inl hin2 => exact hm r hin2
        | inr hge => omega
      | inr hin => exact hrec.2 b hin r hr

theorem runChainGoS_frame (lo : Nat) :
    ∀ (ps : List ProcS), (∀ p ∈ ps, FrameRespecting p) →
    ∀ (s : Store) (bs : List RBatch) (res : Option Response),
      lo ≤ s.next → RefsGE lo bs →
      ExtBelow lo s (runChainGoS ps s bs res).1 ∧
        RefsGE lo (runChainGoS ps s bs res).2.1 := by
  intro ps
  induction ps with
  | nil =>
    intro _ s bs res hlo hbs
    cases bs with
    | nil => exact ⟨ExtBelow.rfl lo s, fun b hb => by cases hb⟩
    | cons b bs2 => exact ⟨ExtBelow.rfl lo s, hbs⟩
  | cons p ps2 ih =>
    intro hps s bs res hlo hbs
    cases bs with
    | nil => exact ⟨ExtBelow.rfl lo s, fun b hb => by cases hb⟩
    | cons b bs2 =>
      have hp : FrameRespecting p := hps p (List.mem_cons_self p ps2)
      have hstage := runStageS_frame p hp lo (b :: bs2) s res hlo hbs
      have hrec := ih (fun q hq => hps q (List.mem_cons_of_mem p hq))
        (runStageS p s (b :: bs2) res).1
        (runStageS p s (b :: bs2) res).2.1
        (runStageS p s (b :: bs2) res).2.2
        (Nat.le_trans hlo hstage.1.1) hstage.2
      exact ⟨hstage.1.trans hrec.1, hrec.2⟩

theorem processGroupsS_frame (lo : Nat) :
    ∀ (gs : List GroupS),
      (∀ g ∈ gs, ∀ p ∈ g.Processors, FrameRespecting p) →
    ∀ (s : Store) (bs : List RBatch),
      lo ≤ s.next → RefsGE lo bs →
      ExtBelow lo s (processGroupsS gs s bs).1 := by
  intro gs
  induction gs with
  | nil => exact fun _ s bs _ _ => ExtBelow.rfl lo s
  | cons g gs2 ih =>
    intro hps s bs hlo hbs
    cases bs with
    | nil => exact ExtBelow.rfl lo s
    | cons b bs2 =>
      have hbs2 : RefsGE lo bs2 := fun b2 hb2 => hbs b2 (List.mem_cons_of_mem b hb2)
      have hg2 : ∀ g2 ∈ gs2, ∀ p ∈ g2.Processors, FrameRespecting p :=
        fun g2 hg2 => hps g2 (List.mem_cons_of_mem g hg2)
      show ExtBelow lo s (processGroupsS (g :: gs2) s (b :: bs2)).1
      rw [processGroupsS]
      by_cases hb : b.length = 0
      · rw [if_pos hb]
        exact ih hg2 s bs2 hlo hbs2
      · rw [if_neg hb]
        have hchain := runChainGoS_frame lo g.Processors
          (hps g (List.mem_cons_self g gs2)) s [b] none hlo
          (fun b2 hb2 r hr => by
            have hb2b : b2 = b := by simpa using hb2
            exact hbs b (List.mem_cons_self b bs2) r (hb2b ▸ hr))
        have hrec := ih hg2 (runChainGoS g.Processors s [b] none).1 bs2
          (Nat.le_trans hlo hchain.1.1) hbs2
        exact hchain.1.trans hrec

/-- C7: after the store-embedded `ProcessMessage` returns, every part of the
original input batch is unchanged in payload and metadata — provided every
stage respects the framing discipline of the collaborator contract (it only
mutates parts handed to it or freshly allocated ones); moreover every
reference routed into a group bucket or the residual bucket is a fresh
duplicate, never a reference of the original batch. -/
theorem groupBy_non_mutation (g : GroupByS) (s : Store) (msg : RBatch)
    (hmsg : ∀ r ∈ msg, r < s.next)
    (hfr : ∀ gr ∈ g.groups, ∀ p ∈ gr.Processors, FrameRespecting p) :
    (∀ r ∈ msg, (ProcessMessageS g s msg).1.mem r = s.mem r)
    ∧ (∀ b ∈ (classifyS g.groups s msg).2.1, ∀ r ∈ b, r ∉ msg)
    ∧ (∀ r ∈ (classifyS g.groups s msg).2.2, r ∉ msg) := by
  have hrefs := classifyGoS_refs g.groups msg msg.enum
    (s, List.replicate g.groups.length [], []) s.next (Nat.le_refl _)
    (fun b hb r hr => by
      have : b = [] := List.eq_of_mem_replicate hb
      subst this
      cases hr)
    (fun r hr => by cases hr)
  have hext : ExtBelow s.next s (classifyS g.groups s msg).1 :=
    classifyGoS_ext g.groups msg msg.enum
      (s, List.replicate g.groups.length [], []) s.next (Nat.le_refl _)
  refine ⟨?_, ?_, ?_⟩
  · intro r hr
    unfold ProcessMessageS
    by_cases hlen : msg.length = 0
    · rw [if_pos hlen]
    · rw [if_neg hlen]
      have hpg := processGroupsS_frame s.next g.groups hfr
        (classifyS g.groups s msg).1 (classifyS g.groups s msg).2.1
        hext.1 hrefs.1
      have hall : ExtBelow s.next s
          (processGroupsS g.groups (classifyS g.groups s msg).1
            (classifyS g.groups s msg).2.1).1 := hext.trans hpg
      have hrlt : r < s.next := hmsg r hr
      by_cases hc : (if (classifyS g.groups s msg).2.2.length > 0 then
          (processGroupsS g.groups (classifyS g.groups s msg).1
            (classifyS g.groups s msg).2.1).2 ++
            [(classifyS g.groups s msg).2.2]
        else (processGroupsS g.groups (classifyS g.groups s msg).1
            (classifyS g.groups s msg).2.1).2).length = 0
      · rw [if_pos hc]
        exact hall.2 r hrlt
      · rw [if_neg hc]
        exact hall.2 r hrlt
  · intro b hb r hr hrin
    have h1 := hrefs.1 b hb r hr
    have h2 := hmsg r hrin
    omega
  · intro r hr hrin
    have h1 := hrefs.2 r hr
    have h2 := hmsg r hrin
    omega

theorem procNoopS_frame : FrameRespecting procNoopS := by
  intro s b
  refine ⟨Nat.le_refl _, fun r _ _ => rfl, ?_⟩
  intro out hout r hr
  have : out = b := by simpa [procNoopS] using hout
  subst this
  exact Or.inl hr

/-- Closed instance of the non-mutation theorem: a one-part store routed
through a pass-through group leaves reference 0 untouched. -/
theorem groupBy_non_mutation_witness :
    (ProcessMessageS gbSEx sEx [0]).1.mem 0 = sEx.mem 0 :=
  (groupBy_non_mutation gbSEx sEx [0] (by decide)
    (by
      intro gr hgr p hp
      have hgr2 : gr = { Condition := condTrueS, Processors := [procNoopS] } := by
        simpa [gbSEx] using hgr
      subst hgr2
      have hp2 : p = procNoopS := by simpa using hp
      subst hp2
      exact procNoopS_frame)).1 0 (by decide)

/-! ## Metadata frame lemmas -/

theorem copyBatchS_next (msg : RBatch) :
    ∀ s : Store, (copyBatchS s msg).1.next = s.next + msg.length := by
  induction msg with
  | nil => intro s; rfl
  | cons r rest ih =>
    intro s
    show (copyBatchS (s.copyPart r).1 rest).1.next = s.next + (rest.length + 1)
    rw [ih, copyPart_next]
    omega

theorem copyBatchS_refs (msg : RBatch) :
    ∀ s : Store,
      (copyBatchS s msg).2 =
        (List.range msg.length).map (fun k => s.next + k) := by
  induction msg with
  | nil => intro s; rfl
  | cons r rest ih =>
    intro s
    show s.next :: (copyBatchS (s.copyPart r).1 rest).2 = _
    rw [ih, copyPart_next]
    show _ = (List.range (rest.length + 1)).map (fun k => s.next + k)
    rw [List.range_succ_eq_map]
    simp only [List.map_cons, List.map_map]
    congr 1
    apply List.map_congr_left
    intro a _
    simp only [Function.comp_apply, Nat.succ_eq_add_one]
    omega

theorem copyBatchS_mem_old (msg : RBatch) :
    ∀ (s : Store) (q : Nat), q < s.next →
      (copyBatchS s msg).1.mem q = s.mem q := by
  induction msg with
  | nil => intro s q _; rfl
  | cons r rest ih =>
    intro s q hq
    show (copyBatchS (s.copyPart r).1 rest).1.mem q = s.mem q
    rw [ih (s.copyPart r).1 q (by rw [copyPart_next]; omega)]
    exact copyPart_mem_ne s r q (by omega)

theorem copyBatchS_mem_new (msg : RBatch) :
    ∀ s : Store, (∀ r ∈ msg, r < s.next) →
      ∀ k, k < msg.length →
        (copyBatchS s msg).1.mem (s.next + k) = s.mem (msg.getD k 0) := by
  induction msg with
  | nil =>
    intro s _ k hk
    cases hk
  | cons r rest ih =>
    intro s hm k hk
    match k with
    | 0 =>
      show (copyBatchS (s.copyPart r).1 rest).1.mem (s.next + 0) = s.mem r
      rw [Nat.add_zero]
      rw [copyBatchS_mem_old rest (s.copyPart r).1 s.next
        (by rw [copyPart_next]; omega)]
      exact copyPart_mem_new s r
    | k + 1 =>
      show (copyBatchS (s.copyPart r).1 rest).1.mem (s.next + (k + 1)) =
        s.mem (rest.getD k 0)
      have heq : s.next + (k + 1) = (s.copyPart r).1.next + k := by
        rw [copyPart_next]
        omega
      rw [heq]
      rw [ih (s.copyPart r).1
        (fun q hq => by
          rw [copyPart_next]
          have := hm q (List.mem_cons_of_mem r hq)
          omega)
        k (by simpa using hk)]
      apply copyPart_mem_ne
      have hmem : rest.getD k 0 ∈ rest :=
        getD_mem_of_lt _ _ _ (by simpa using hk)
      have := hm _ (List.mem_cons_of_mem r hmem)
      omega

theorem applyAtIdxS_mem_notin (op : metadataOperator) (v : String)
    (msg2 : RBatch) (st : Store) (idx : Int) (r : Nat) (h : r ∉ msg2) :
    (applyAtIdxS op v msg2 st idx).mem r = st.mem r := by
  unfold applyAtIdxS
  by_cases hg : 0 ≤ idx ∧ idx.toNat < msg2.length
  · rw [if_pos hg]
    apply setMeta_mem_ne
    intro hc
    apply h
    rw [hc]
    exact getD_mem_of_lt _ _ _ hg.2
  · rw [if_neg hg]

theorem foldl_applyAtIdxS_mem_notin (op : metadataOperator) (v : String)
    (msg2 : RBatch) (l : List Int) :
    ∀ (st : Store) (r : Nat), r ∉ msg2 →
      (l.foldl (applyAtIdxS op v msg2) st).mem r = st.mem r := by
  induction l with
  | nil => intro st r _; rfl
  | cons idx rest ih =>
    intro st r h
    rw [List.foldl_cons, ih _ r h]
    exact applyAtIdxS_mem_notin op v msg2 st idx r h

theorem nodup_getD_inj {l : List Nat} (h : l.Nodup) {j k : Nat}
    (hj : j < l.length) (hk : k < l.length)
    (he : l.getD j 0 = l.getD k 0) : j = k := by
  have hgj : l.getD j 0 = l.get ⟨j, hj⟩ := by
    rw [List.getD_eq_getElem?_getD, List.getElem?_eq_getElem hj]
    rfl
  have hgk : l.getD k 0 = l.get ⟨k, hk⟩ := by
    rw [List.getD_eq_getElem?_getD, List.getElem?_eq_getElem hk]
    rfl
  rw [hgj, hgk] at he
  have := (List.Nodup.get_inj_iff h).mp he
  exact congrArg Fin.val this

theorem applyAtIdxS_mem_target (op : metadataOperator) (v : String)
    (msg2 : RBatch) (st : Store) (k : Nat) (hk : k < msg2.length) :
    (applyAtIdxS op v msg2 st ((k : Nat) : Int)).mem (msg2.getD k 0) =
      applyOp op v (st.mem (msg2.getD k 0)) := by
  unfold applyAtIdxS
  rw [if_pos ⟨by omega, by simpa using hk⟩]
  have htoNat : (((k : Nat) : Int)).toNat = k := rfl
  rw [htoNat]
  rw [setMeta_mem_self]
  rfl

theorem applyAtIdxS_mem_other (op : metadataOperator) (v : String)
    (msg2 : RBatch) (hinj : msg2.Nodup) (k : Nat) (hk : k < msg2.length)
    (idx : Int) (hidx : idx ≠ (k : Int)) (st : Store) :
    (applyAtIdxS op v msg2 st idx).mem (msg2.getD k 0) =
      st.mem (msg2.getD k 0) := by
  unfold applyAtIdxS
  by_cases hg : 0 ≤ idx ∧ idx.toNat < msg2.length
  · rw [if_pos hg]
    apply setMeta_mem_ne
    intro hc
    have hjk : k = idx.toNat := nodup_getD_inj hinj hk hg.2 hc
    apply hidx
    omega
  · rw [if_neg hg]

theorem foldl_applyAtIdxS_mem_nottarget (op : metadataOperator) (v : String)
    (msg2 : RBatch) (hinj : msg2.Nodup) (k : Nat) (hk : k < msg2.length) :
    ∀ (l : List Int), (k : Int) ∉ l → ∀ st : Store,
      (l.foldl (applyAtIdxS op v msg2) st).mem (msg2.getD k 0) =
        st.mem (msg2.getD k 0) := by
  intro l
  induction l with
  | nil => intro _ st; rfl
  | cons idx rest ih =>
    intro h st
    rw [List.foldl_cons]
    rw [ih (fun hc => h (List.mem_cons_of_mem idx hc)) _]
    exact applyAtIdxS_mem_other op v msg2 hinj k hk idx
      (fun hc => h (hc ▸ List.mem_cons_self idx rest)) st

theorem foldl_applyAtIdxS_mem (op : metadataOperator) (v : String)
    (msg2 : RBatch) (hinj : msg2.Nodup) (k : Nat) (hk : k < msg2.length) :
    ∀ (l : List Int), l.Nodup → ∀ st : Store,
      (l.foldl (applyAtIdxS op v msg2) st).mem (msg2.getD k 0) =
        (if (k : Int) ∈ l then applyOp op v (st.mem (msg2.getD k 0))
         else st.mem (msg2.getD k 0)) := by
  intro l
  induction l with
  | nil => intro _ st; simp
  | cons idx rest ih =>
    intro hnd st
    rw [List.foldl_cons]
    by_cases hidx : idx = (k : Int)
    · subst hidx
      have hnin : (k : Int) ∉ rest := (List.nodup_cons.mp hnd).1
      rw [foldl_applyAtIdxS_mem_nottarget op v msg2 hinj k hk rest hnin]
      rw [applyAtIdxS_mem_target op v msg2 st k hk]
      rw [if_pos (List.mem_cons_self _ _)]
    · rw [ih (List.nodup_cons.mp hnd).2 _]
      rw [applyAtIdxS_mem_other op v msg2 hinj k hk idx hidx st]
      by_cases hin : (k : Int) ∈ rest
      · rw [if_pos hin, if_pos (List.mem_cons_of_mem idx hin)]
      · rw [if_neg hin, if_neg ?_]
        intro hc
        cases List.mem_cons.mp hc with
        | inl h1 => exact hidx h1.symm
        | inr h2 => exact hin h2

theorem metadataS_store (env : InterpEnvS) (p : MetadataProc) (s : Store)
    (msg : RBatch) :
    (MetadataProcessMessageS env p s msg).1 =
      (if p.parts.length = 0
        then (List.range (copyBatchS s msg).2.length).map
          (fun i : Nat => (i : Int))
        else p.parts).foldl
          (applyAtIdxS p.operator
            (if p.interpolate
             then env.replaceVars (copyBatchS s msg).1 msg p.valueBytes
             else p.valueBytes)
            (copyBatchS s msg).2)
          (copyBatchS s msg).1 := rfl

theorem metadataS_out (env : InterpEnvS) (p : MetadataProc) (s : Store)
    (msg : RBatch) :
    (MetadataProcessMessageS env p s msg).2.1 = [(copyBatchS s msg).2] :=
  rfl

/-- C10: the store-embedded metadata stage leaves its input message
untouched: all edits land on a fresh copy (whose references are disjoint
from the input's), and the interpolated value is resolved once against the
original message before any edit, so every targeted part of the copy ends
up as the original part with the operator applied under that single
resolved value, edits to earlier parts notwithstanding. -/
theorem metadata_non_mutation (env : InterpEnvS) (p : MetadataProc)
    (s : Store) (msg : RBatch)
    (hmsg : ∀ r ∈ msg, r < s.next) (henv : ReadsOnlyS env)
    (hnd : p.parts.Nodup) :
    (∀ r ∈ msg, (MetadataProcessMessageS env p s msg).1.mem r = s.mem r)
    ∧ (∃ out : RBatch,
        (MetadataProcessMessageS env p s msg).2.1 = [out] ∧
        out.length = msg.length ∧
        (∀ r ∈ out, r ∉ msg) ∧
        (∀ k, k < msg.length →
          (MetadataProcessMessageS env p s msg).1.mem (out.getD k 0) =
            (if p.parts = [] ∨ (k : Int) ∈ p.parts
             then applyOp p.operator (resolvedValueS env p s msg)
               (s.mem (msg.getD k 0))
             else s.mem (msg.getD k 0)))) := by
  have hrefs := copyBatchS_refs msg s
  have hlen2 : (copyBatchS s msg).2.length = msg.length := by
    rw [hrefs]
    simp
  have hnotin : ∀ r ∈ msg, r ∉ (copyBatchS s msg).2 := by
    intro r hr hc
    rw [hrefs] at hc
    simp only [List.mem_map, List.mem_range] at hc
    obtain ⟨k, hk, hkr⟩ := hc
    have := hmsg r hr
    omega
  have hfresh : ∀ r ∈ (copyBatchS s msg).2, r ∉ msg := by
    intro r hr hc
    rw [hrefs] at hr
    simp only [List.mem_map, List.mem_range] at hr
    obtain ⟨k, hk, hkr⟩ := hr
    have := hmsg r hc
    omega
  have hnodup2 : (copyBatchS s msg).2.Nodup := by
    rw [hrefs]
    refine List.Nodup.map ?_ (List.nodup_range _)
    intro a b h
    simp only at h
    omega
  have hgetD2 : ∀ k, k < msg.length →
      (copyBatchS s msg).2.getD k 0 = s.next + k := by
    intro k hk
    rw [hrefs]
    rw [List.getD_eq_getElem?_getD, List.getElem?_map, List.getElem?_range hk]
    rfl
  have hval :
      (if p.interpolate
       then env.replaceVars (copyBatchS s msg).1 msg p.valueBytes
       else p.valueBytes) = resolvedValueS env p s msg := by
    unfold resolvedValueS
    cases hi : p.interpolate
    · rfl
    · simp only [if_true]
      exact henv (copyBatchS s msg).1 s msg p.valueBytes
        (fun r hr => copyBatchS_mem_old msg s r (hmsg r hr))
  refine ⟨?_, (copyBatchS s msg).2, metadataS_out env p s msg, hlen2,
    hfresh, ?_⟩
  · intro r hr
    rw [metadataS_store]
    rw [foldl_applyAtIdxS_mem_notin _ _ _ _ _ r (hnotin r hr)]
    exact copyBatchS_mem_old msg s r (hmsg r hr)
  · intro k hk
    have hk2 : k < (copyBatchS s msg).2.length := by omega
    rw [metadataS_store]
    by_cases hparts : p.parts = []
    · have hplen : p.parts.length = 0 := by rw [hparts]; rfl
      rw [if_pos hplen]
      have htnodup : ((List.range (copyBatchS s msg).2.length).map
          (fun i : Nat => (i : Int))).Nodup := by
        refine List.Nodup.map ?_ (List.nodup_range _)
        intro a b h
        simp only at h
        omega
      rw [foldl_applyAtIdxS_mem _ _ _ hnodup2 k hk2 _ htnodup _]
      have hmem : ((k : Nat) : Int) ∈
          (List.range (copyBatchS s msg).2.length).map
            (fun i : Nat => (i : Int)) := by
        simp only [List.mem_map, List.mem_range]
        exact ⟨k, by omega, rfl⟩
      rw [if_pos hmem]
      rw [hgetD2 k hk]
      rw [copyBatchS_mem_new msg s hmsg k hk]
      rw [hval]
      rw [if_pos (Or.inl hparts)]
    · have hplen : ¬ p.parts.length = 0 :=
        fun hc => hparts (List.length_eq_zero.mp hc)
      rw [if_neg hplen]
      rw [foldl_applyAtIdxS_mem _ _ _ hnodup2 k hk2 _ hnd _]
      rw [hgetD2 k hk]
      rw [copyBatchS_mem_new msg s hmsg k hk]
      rw [hval]
      by_cases hin : (k : Int) ∈ p.parts
      · rw [if_pos hin, if_pos (Or.inr hin)]
      · rw [if_neg hin, if_neg ?_]
        intro hc
        cases hc with
        | inl h1 => exact hparts h1
        | inr h2 => exact hin h2

/-- Closed instance of the metadata non-mutation theorem: a one-part store
passed through the example metadata stage leaves reference 0 untouched. -/
theorem metadata_non_mutation_witness :
    (MetadataProcessMessageS envSEx mpEx sEx [0]).1.mem 0 = sEx.mem 0 :=
  (metadata_non_mutation envSEx mpEx sEx [0] (by decide)
    (fun _ _ _ _ _ => rfl) (by decide)).1 0 (by decide)

end Benthos
